import Mathlib

/-!
# Verification of the linear matrix pencil component (`include/convex_bodies/spectrahedra/LMI.h`)

This file gives a shallow embedding of the `LMI` class — the packed dense
representation of a linear matrix pencil `A0 + Σ x_i·A_i` — and proves the
stated properties of its operations.

Modelling conventions:
* Matrix entries are exact rationals (`ℚ`); the source instantiates the
  numeric type with floating point, and the equalities proved here are the
  exact-arithmetic counterparts of the floating-tolerance statements.
* An Eigen dynamic matrix is modelled as a total entry function `ℕ → ℕ → ℚ`
  together with its recorded row count (`SizedMat`); a dynamic vector is a
  total function `ℕ → ℚ`.  Only entries below the recorded sizes are ever
  meaningful; out-of-range reads of these total functions correspond to
  out-of-bounds memory accesses in the C++.
* The raw column-major buffer obtained from `res.data()` is modelled as a
  function `ℕ → ℚ` (index `col * m + row` holds entry `(row, col)`), and each
  pointer write of the two triangular copy passes becomes a `Function.update`.
  Loops become structural recursion on the remaining iteration count.
* `unsigned int` / `size_t` arithmetic that can wrap is made explicit with
  `% 2 ^ 32` / `% 2 ^ 64` (the constructor's `matrices.size() - 1`).
* The eigen-oracle (`EigenvaluesProblems::findSymEigenvalue`, whose source is
  not part of the shown material) is an abstract parameter; its contract is
  modelled from the spec where a claim needs it.
-/

/-- Entry function of an Eigen dense matrix. -/
abbrev Mat : Type := ℕ → ℕ → ℚ

/-- Entry function of an Eigen dense vector. -/
abbrev Vec : Type := ℕ → ℚ

/-- A dynamic matrix: its recorded number of rows together with its entries
(the stored `A_i` are square, so `rows` is also the column count Eigen would
use for products). -/
structure SizedMat where
  rows : ℕ
  entry : Mat

/-- Junk value standing for reading a matrix that is not there (an
out-of-bounds `std::vector` access in the C++). -/
def zeroSM : SizedMat := ⟨0, fun _ _ => 0⟩

/-- The copy loop of the dense-specialization constructor
(`while (it != matrices.end()) { this->matrices.push_back(*it); it++; }`):
a fold pushing each element in order onto the initially empty member vector. -/
def copyLoop (ms : List SizedMat) : List SizedMat :=
  ms.foldl (fun acc A => acc ++ [A]) []

/-- Inner loop of `setVectorMatrix` for one row `r` of one coefficient matrix:
`for (at_col = at_row; at_col < m; at_col++) vectorMatrix(i++, atMatrix) = A(at_row, at_col);`
`n` is the remaining iteration count, `c` the current column, `i` the running
packed index, `V` the packed column being filled. -/
def packRowWrites (A : Mat) (r : ℕ) : ℕ → ℕ → ℕ → (ℕ → ℚ) → ℕ → ℚ
  | 0, _, _, V => V
  | n + 1, c, i, V => packRowWrites A r n (c + 1) (i + 1) (Function.update V i (A r c))

/-- Outer loop of `setVectorMatrix` over the rows of one coefficient matrix:
`for (at_row = 0; at_row < m; at_row++) ...`, with the packed index `i`
advancing by `m - r` entries per row. -/
def packColLoop (A : Mat) (m : ℕ) : ℕ → ℕ → ℕ → (ℕ → ℚ) → ℕ → ℚ
  | 0, _, _, V => V
  | n + 1, r, i, V => packColLoop A m n (r + 1) (i + (m - r)) (packRowWrites A r (m - r) r i V)

/-- The packed column of one coefficient matrix: the `m(m+1)/2` distinct
upper-triangular entries of `A`, row-major over the upper triangle.  The
freshly `resize`d storage is represented by the zero function (every packed
index below `m(m+1)/2` is overwritten). -/
def packColumn (m : ℕ) (A : Mat) : ℕ → ℚ :=
  packColLoop A m m 0 0 (fun _ => 0)

/-- `setVectorMatrix`: column `k` of `vectorMatrix` holds the packed upper
triangle of matrix `k+1` of the stored sequence (the loop skips `A0`); the
columns are filled independently, one per coefficient matrix. -/
def setVectorMatrix (m : ℕ) (ms : List SizedMat) : ℕ → ℕ → ℚ :=
  fun i k => packColumn m ((ms.drop 1).getD k zeroSM).entry i

/-- The dense-specialization `LMI` object: the stored matrices `A0..Ad`, the
dimensions `d` and `m`, and the precomputed packed coefficient matrix. -/
structure LMI where
  matrices : List SizedMat
  d : ℕ
  m : ℕ
  vectorMatrix : ℕ → ℕ → ℚ

/-- The dense-specialization constructor: copies the input matrices, sets
`d = matrices.size() - 1` (computed in `size_t`, then truncated into the
`unsigned int` member — hence the explicit `% 2^64` and `% 2^32`),
`m = matrices[0].rows()` (reading the first element, out of bounds when the
input is empty — modelled by the `zeroSM` junk value), and builds
`vectorMatrix`.  No validation of any kind is performed. -/
def LMI.ofMatrices (ms : List SizedMat) : LMI :=
  { matrices := copyLoop ms
  , d := ((copyLoop ms).length + (2 ^ 64 - 1)) % 2 ^ 64 % 2 ^ 32
  , m := ((copyLoop ms).getD 0 zeroSM).rows
  , vectorMatrix := setVectorMatrix ((copyLoop ms).getD 0 zeroSM).rows (copyLoop ms) }

/-- The packed linear combination `VT a = vectorMatrix * x`: entry `i` of the
product of the `(m(m+1)/2) × d` packed matrix with the position vector. -/
def packedCombo (L : LMI) (x : Vec) : Vec :=
  fun i => ∑ k ∈ Finset.range L.d, L.vectorMatrix i k * x k

/-- Inner loop of the lower-triangular copy pass of `evaluateWithoutA0`:
`target = data + at_col*m + at_col; for (at_row = at_col; at_row < m; at_row++) *(target++) = *(v++);`
writes consecutive packed values at consecutive buffer addresses (consecutive
rows of one column of the column-major buffer).  `n` is the remaining
iteration count, `tgt` the running target pointer, `k` the running read
position in `a`. -/
def innerWrites (a : Vec) : ℕ → ℕ → ℕ → (ℕ → ℚ) → ℕ → ℚ
  | 0, _, _, buf => buf
  | n + 1, tgt, k, buf =>
      innerWrites a n (tgt + 1) (k + 1) (Function.update buf tgt (a k))

/-- Outer loop of the lower-triangular copy pass: columns `0..m-1`, the inner
pointer starting at `col_offset + at_col = col*m + col` and the read position
in `a` advancing by the `m - col` writes of the inner loop. -/
def lowerPass (a : Vec) (m : ℕ) : ℕ → ℕ → ℕ → (ℕ → ℚ) → ℕ → ℚ
  | 0, _, _, buf => buf
  | n + 1, col, k, buf =>
      lowerPass a m n (col + 1) (k + (m - col)) (innerWrites a (m - col) (col * m + col) k buf)

/-- Inner loop of the upper-triangular copy pass:
`target = data + at_row + at_row*m; for (at_col = at_row; at_col < m; at_col++) { *target = *(v++); target += m; }`
writes consecutive packed values at buffer addresses with stride `m`
(consecutive columns of one row of the column-major buffer). -/
def upperInnerWrites (a : Vec) (m : ℕ) : ℕ → ℕ → ℕ → (ℕ → ℚ) → ℕ → ℚ
  | 0, _, _, buf => buf
  | n + 1, tgt, k, buf =>
      upperInnerWrites a m n (tgt + m) (k + 1) (Function.update buf tgt (a k))

/-- Outer loop of the upper-triangular copy pass: rows `0..m-1`, the inner
pointer starting at `at_row + at_row*m` and the read position restarting from
`v = a.data()` and advancing by the `m - row` reads of the inner loop. -/
def upperPass (a : Vec) (m : ℕ) : ℕ → ℕ → ℕ → (ℕ → ℚ) → ℕ → ℚ
  | 0, _, _, buf => buf
  | n + 1, row, k, buf =>
      upperPass a m n (row + 1) (k + (m - row)) (upperInnerWrites a m (m - row) (row + row * m) k buf)

/-- `evaluateWithoutA0` (packed path): compute `a = vectorMatrix * x`, then
run the lower- and upper-triangular copy passes over the column-major output
buffer (`res.data()`); entry `(r, c)` of the result lives at buffer index
`c * m + r`.  The `resize`d buffer's unspecified initial contents are
represented by the zero function — both passes together overwrite every entry
below `m × m`. -/
def evaluateWithoutA0 (L : LMI) (x : Vec) : Mat :=
  fun r c =>
    upperPass (packedCombo L x) L.m L.m 0 0
      (lowerPass (packedCombo L x) L.m L.m 0 0 (fun _ => 0)) (c * L.m + r)

/-- `evaluate`: delegate to `evaluateWithoutA0`, then add `A0` element-wise
(`ret += matrices[0]`). -/
def evaluate (L : LMI) (x : Vec) : Mat :=
  fun r c => evaluateWithoutA0 L x r c + (L.matrices.getD 0 zeroSM).entry r c

/-- The naive weighted sum `x_1·A_1 + ... + x_d·A_d`, as in the
`EVALUATE_WITHOUT_A0_NAIVE` branch of the source
(`res = Zero; for i: res += x(i) * A_{i+1}`). -/
def naiveEvaluateWithoutA0 (L : LMI) (x : Vec) : Mat :=
  fun r c => ∑ k ∈ Finset.range L.d, x k * (L.matrices.getD (k + 1) zeroSM).entry r c

/-- The pre-normalization gradient of `normalizedDeterminantGradient`:
`ret(i) = e.dot(matrices[i+1] * e)`, the quadratic form `eᵀ·A_{i+1}·e`.  The
ranges of both contractions are the (square) matrix's recorded size. -/
def preGradient (L : LMI) (e : Vec) : Vec :=
  fun i =>
    ∑ r ∈ Finset.range (L.matrices.getD (i + 1) zeroSM).rows,
      e r * ∑ c ∈ Finset.range (L.matrices.getD (i + 1) zeroSM).rows,
        (L.matrices.getD (i + 1) zeroSM).entry r c * e c

/-- The squared Euclidean norm of the length-`d` pre-normalization vector. -/
def gradNormSq (L : LMI) (e : Vec) : ℚ :=
  ∑ i ∈ Finset.range L.d, preGradient L e i ^ 2

/-- `normalizedDeterminantGradient`: fill `ret` with the quadratic forms, then
`ret.normalize()`.  Eigen's `MatrixBase::normalize` divides the vector by its
Euclidean norm when the squared norm is positive and leaves the vector
unchanged otherwise; no error is raised on the degenerate (zero) input.  The
point `p` is accepted but never read by the source.  The division by a square
root forces real-valued coordinates. -/
noncomputable def normalizedDeterminantGradient (L : LMI) (p e : Vec) : ℕ → ℝ :=
  fun i =>
    if 0 < gradNormSq L e then
      (preGradient L e i : ℝ) / Real.sqrt (gradNormSq L e)
    else (preGradient L e i : ℝ)

/-- `isNegativeSemidefinite(MT const& matrix)`: ask the eigen-oracle for one
extremal eigenvalue and compare with 0.  The oracle
(`EigenvaluesProblems::findSymEigenvalue`) is an abstract parameter. -/
def isNegativeSemidefiniteM (oracle : Mat → ℚ) (M : Mat) : Bool :=
  decide (oracle M ≤ 0)

/-- `isNegativeSemidefinite(VT const& pos)`: evaluate the pencil at `pos`,
then apply the matrix form. -/
def isNegativeSemidefiniteV (oracle : Mat → ℚ) (L : LMI) (x : Vec) : Bool :=
  isNegativeSemidefiniteM oracle (evaluate L x)

/-- Symmetry of the top-left `m × m` block of an entry function. -/
def SymmWithin (m : ℕ) (A : Mat) : Prop :=
  ∀ r < m, ∀ c < m, A r c = A c r

instance (m : ℕ) (A : Mat) : Decidable (SymmWithin m A) := by
  unfold SymmWithin
  infer_instance

/-- Matrix-vector product over the leading `n × n` block. -/
def mulVecN (n : ℕ) (A : Mat) (v : Vec) : Vec :=
  fun r => ∑ c ∈ Finset.range n, A r c * v c

/-- Modelled from the spec: the contract of the eigen-oracle collaborator
(`extremalEigenvalue` / `findSymEigenvalue`, whose implementation is not part
of the shown material) — the returned scalar is the maximum eigenvalue of the
given symmetric matrix: it is an eigenvalue, and every eigenvalue is at most
it. -/
def IsMaxEigenvalue (n : ℕ) (A : Mat) (lam : ℚ) : Prop :=
  (∃ v : Vec, (∃ i, i < n ∧ v i ≠ 0) ∧ ∀ r < n, mulVecN n A v r = lam * v r) ∧
  (∀ (mu : ℚ) (v : Vec), (∃ i, i < n ∧ v i ≠ 0) → (∀ r < n, mulVecN n A v r = mu * v r) →
    mu ≤ lam)

/-- Number of packed entries strictly before row `r`'s segment of the
row-major upper-triangular enumeration: `Σ_{j<r} (m - j)`. -/
def triOffset (m r : ℕ) : ℕ :=
  ∑ j ∈ Finset.range r, (m - j)

/-- The copy loop of the UNSPECIALIZED generic `LMI` template's constructor:
`while (it != matrices.end()) { this->matrices.push_back(*it); }` — the
iterator is tested against `end()` but never advanced.  Modelled with an
explicit iteration budget (`fuel`): `i` is the iterator's position, `acc` the
member vector; `none` means the budget was exhausted with the loop still
running. -/
def genericCopyLoop (ms : List SizedMat) (i : ℕ) : ℕ → List SizedMat → Option (List SizedMat)
  | 0, acc => if i = ms.length then some acc else none
  | fuel + 1, acc =>
      if i = ms.length then some acc
      else genericCopyLoop ms i fuel (acc ++ [ms.getD i zeroSM])

/-- `A0` of the concrete test scenario: the zero matrix. -/
def demoA0 : Mat := fun _ _ => 0

/-- `A1 = [[1,0],[0,-1]]` of the concrete test scenario. -/
def demoA1 : Mat := fun r c =>
  if r = 0 ∧ c = 0 then 1 else if r = 1 ∧ c = 1 then -1 else 0

/-- `A2 = [[0,1],[1,0]]` of the concrete test scenario. -/
def demoA2 : Mat := fun r c =>
  if (r = 0 ∧ c = 1) ∨ (r = 1 ∧ c = 0) then 1 else 0

/-- The concrete scenario's matrix sequence (`d = 2`, `m = 2`). -/
def demoMs : List SizedMat := [⟨2, demoA0⟩, ⟨2, demoA1⟩, ⟨2, demoA2⟩]

/-- The concrete scenario's pencil. -/
def demoL : LMI := LMI.ofMatrices demoMs

/-- The position `(1, 0)`. -/
def xPos : Vec := fun i => if i = 0 then 1 else 0

/-- The position `(-1, 0)`. -/
def xNeg : Vec := fun i => if i = 0 then -1 else 0

/-- A vector whose first coordinate is 5 and whose later coordinates are 0:
one possible memory content beyond the end of a length-1 vector. -/
def xShortA : Vec := fun i => if i = 0 then 5 else 0

/-- A vector agreeing with `xShortA` at coordinate 0 but differing at
coordinate 1: another possible memory content beyond the end of a length-1
vector. -/
def xShortB : Vec := fun i => if i = 0 then 5 else 7

/-- A pencil with `d = 1`, `A1 = [[1,0],[0,-1]]`, used to exhibit a
degenerate gradient. -/
def degL : LMI := LMI.ofMatrices [⟨2, demoA0⟩, ⟨2, demoA1⟩]

/-- The kernel-style vector `(1, 1)`: its quadratic form against `demoA1`
vanishes. -/
def eOnes : Vec := fun i => if i < 2 then 1 else 0

/-- An arbitrary evaluation point (the gradient code never reads it). -/
def pZero : Vec := fun _ => 0

/-! ## Loop characterizations -/

theorem copyLoop_eq (ms : List SizedMat) : copyLoop ms = ms := by
  have h : ∀ (l acc : List SizedMat), l.foldl (fun acc A => acc ++ [A]) acc = acc ++ l := by
    intro l
    induction l with
    | nil => simp
    | cons A t ih => intro acc; simp [List.foldl_cons, ih]
  simpa [copyLoop] using h ms []

theorem ofMatrices_matrices (ms : List SizedMat) : (LMI.ofMatrices ms).matrices = ms := by
  simp [LMI.ofMatrices, copyLoop_eq]

theorem ofMatrices_m (ms : List SizedMat) :
    (LMI.ofMatrices ms).m = (ms.getD 0 zeroSM).rows := by
  simp [LMI.ofMatrices, copyLoop_eq]

theorem ofMatrices_vectorMatrix (ms : List SizedMat) :
    (LMI.ofMatrices ms).vectorMatrix = setVectorMatrix (ms.getD 0 zeroSM).rows ms := by
  simp [LMI.ofMatrices, copyLoop_eq]

theorem ofMatrices_d (ms : List SizedMat) (hne : ms ≠ []) (hlen : ms.length ≤ 2 ^ 32) :
    (LMI.ofMatrices ms).d = ms.length - 1 := by
  have h1 : 1 ≤ ms.length := List.length_pos.mpr hne
  have h64 : (2 : ℕ) ^ 64 = 18446744073709551616 := by norm_num
  have h32 : (2 : ℕ) ^ 32 = 4294967296 := by norm_num
  simp only [LMI.ofMatrices, copyLoop_eq, h64, h32]
  rw [h32] at hlen
  omega

theorem innerWrites_apply (a : Vec) :
    ∀ (n tgt k : ℕ) (buf : ℕ → ℚ) (t : ℕ),
      innerWrites a n tgt k buf t =
        if tgt ≤ t ∧ t < tgt + n then a (k + (t - tgt)) else buf t := by
  intro n
  induction n with
  | zero =>
      intro tgt k buf t
      simp only [innerWrites]
      rw [if_neg (by omega)]
  | succ n ih =>
      intro tgt k buf t
      simp only [innerWrites]
      rw [ih]
      rcases Nat.lt_trichotomy t tgt with h | h | h
      · rw [if_neg (by omega), if_neg (by omega), Function.update_apply, if_neg (by omega)]
      · subst h
        rw [if_neg (by omega), if_pos (by omega), Function.update_apply, if_pos rfl]
        congr 1
        omega
      · by_cases h2 : t < tgt + (n + 1)
        · rw [if_pos (by omega), if_pos (by omega)]
          congr 1
          omega
        · rw [if_neg (by omega), if_neg (by omega), Function.update_apply, if_neg (by omega)]

theorem upperInnerWrites_untouched_lt (a : Vec) (m : ℕ) :
    ∀ (n tgt k : ℕ) (buf : ℕ → ℚ) (t : ℕ), t < tgt →
      upperInnerWrites a m n tgt k buf t = buf t := by
  intro n
  induction n with
  | zero => intro tgt k buf t _; rfl
  | succ n ih =>
      intro tgt k buf t ht
      simp only [upperInnerWrites]
      rw [ih _ _ _ _ (by omega), Function.update_apply, if_neg (by omega)]

theorem upperInnerWrites_untouched_ne (a : Vec) (m : ℕ) :
    ∀ (n tgt k : ℕ) (buf : ℕ → ℚ) (t : ℕ), (∀ j, j < n → t ≠ tgt + j * m) →
      upperInnerWrites a m n tgt k buf t = buf t := by
  intro n
  induction n with
  | zero => intro tgt k buf t _; rfl
  | succ n ih =>
      intro tgt k buf t ht
      simp only [upperInnerWrites]
      rw [ih _ _ _ _ ?later, Function.update_apply, if_neg ?head]
      case head =>
        have h0 := ht 0 (by omega)
        simpa using h0
      case later =>
        intro j hj he
        apply ht (j + 1) (by omega)
        rw [he]
        ring

theorem upperInnerWrites_written (a : Vec) (m : ℕ) (hm : 0 < m) :
    ∀ (n tgt k : ℕ) (buf : ℕ → ℚ) (j : ℕ), j < n →
      upperInnerWrites a m n tgt k buf (tgt + j * m) = a (k + j) := by
  intro n
  induction n with
  | zero => intro tgt k buf j hj; exact absurd hj (by omega)
  | succ n ih =>
      intro tgt k buf j hj
      simp only [upperInnerWrites]
      rcases Nat.eq_zero_or_pos j with hj0 | hjpos
      · subst hj0
        simp only [Nat.zero_mul, Nat.add_zero]
        rw [upperInnerWrites_untouched_lt a m n _ _ _ _ (by omega),
          Function.update_apply, if_pos rfl]
      · obtain ⟨j', rfl⟩ : ∃ j', j = j' + 1 := ⟨j - 1, by omega⟩
        have harg : tgt + (j' + 1) * m = (tgt + m) + j' * m := by ring
        rw [harg, ih _ _ _ j' (by omega)]
        congr 1
        omega

theorem upperPass_untouched (a : Vec) (m : ℕ) :
    ∀ (n row k : ℕ) (buf : ℕ → ℚ) (c r : ℕ), r < m → (r < row ∨ c < r) →
      upperPass a m n row k buf (c * m + r) = buf (c * m + r) := by
  intro n
  induction n with
  | zero => intro row k buf c r _ _; rfl
  | succ n ih =>
      intro row k buf c r hr hcase
      simp only [upperPass]
      rw [ih _ _ _ c r hr (by rcases hcase with h | h; exact Or.inl (by omega); exact Or.inr h)]
      apply upperInnerWrites_untouched_ne
      intro j hj he
      have hm : 0 < m := by omega
      have hrow : row < m := by omega
      have he2 : c * m + r = (row + j) * m + row := by rw [he]; ring
      have hmod : (c * m + r) % m = ((row + j) * m + row) % m := by rw [he2]
      rw [Nat.mul_add_mod', Nat.mul_add_mod', Nat.mod_eq_of_lt hr, Nat.mod_eq_of_lt hrow] at hmod
      rcases hcase with h | h
      · omega
      · have hc : c * m = (row + j) * m := by
          rw [hmod] at he2
          exact Nat.add_right_cancel he2
        have := Nat.eq_of_mul_eq_mul_right hm hc
        omega

theorem upperPass_written (a : Vec) (m : ℕ) :
    ∀ (n row k : ℕ) (buf : ℕ → ℚ) (r c : ℕ),
      row ≤ r → r < row + n → r ≤ c → c < m →
      upperPass a m n row k buf (c * m + r) =
        a (k + (∑ j ∈ Finset.Ico row r, (m - j)) + (c - r)) := by
  intro n
  induction n with
  | zero => intro row k buf r c h1 h2 h3 h4; exact absurd h2 (by omega)
  | succ n ih =>
      intro row k buf r c h1 h2 h3 h4
      simp only [upperPass]
      rcases eq_or_lt_of_le h1 with heq | hlt
      · subst heq
        rw [upperPass_untouched a m n _ _ _ c row (by omega) (Or.inl (by omega))]
        have hm : 0 < m := by omega
        obtain ⟨e, rfl⟩ : ∃ e, c = row + e := ⟨c - row, by omega⟩
        have harg : (row + e) * m + row = (row + row * m) + e * m := by ring
        rw [harg, upperInnerWrites_written a m hm _ _ _ _ e (by omega)]
        simp [Finset.Ico_self]
      · rw [ih _ _ _ r c (by omega) (by omega) h3 h4,
          Finset.sum_eq_sum_Ico_succ_bot hlt]
        congr 1
        ring

theorem lowerPass_untouched (a : Vec) (m : ℕ) :
    ∀ (n col k : ℕ) (buf : ℕ → ℚ) (t : ℕ), t < col * m + col →
      lowerPass a m n col k buf t = buf t := by
  intro n
  induction n with
  | zero => intro col k buf t _; rfl
  | succ n ih =>
      intro col k buf t ht
      simp only [lowerPass]
      have hstep : col * m + col < (col + 1) * m + (col + 1) := by
        have h5 : (col + 1) * m + (col + 1) = col * m + (m + col + 1) := by ring
        rw [h5]
        exact Nat.add_lt_add_left (by omega) _
      rw [ih _ _ _ t (Nat.lt_trans ht hstep), innerWrites_apply,
        if_neg (fun h => absurd h.1 (Nat.not_le.mpr ht))]

theorem lowerPass_written (a : Vec) (m : ℕ) :
    ∀ (n col k : ℕ) (buf : ℕ → ℚ) (c r : ℕ),
      col ≤ c → c < col + n → c ≤ r → r < m →
      lowerPass a m n col k buf (c * m + r) =
        a (k + (∑ j ∈ Finset.Ico col c, (m - j)) + (r - c)) := by
  intro n
  induction n with
  | zero => intro col k buf c r h1 h2 h3 h4; exact absurd h2 (by omega)
  | succ n ih =>
      intro col k buf c r h1 h2 h3 h4
      simp only [lowerPass]
      rcases eq_or_lt_of_le h1 with heq | hlt
      · subst heq
        have hm : 0 < m := by omega
        have ht : col * m + r < (col + 1) * m + (col + 1) := by
          have h5 : (col + 1) * m + (col + 1) = col * m + (m + col + 1) := by ring
          rw [h5]
          exact Nat.add_lt_add_left (by omega) _
        rw [lowerPass_untouched a m n _ _ _ _ ht, innerWrites_apply,
          if_pos ⟨Nat.add_le_add_left h3 _, by
            rw [Nat.add_assoc]
            exact Nat.add_lt_add_left (by omega) _⟩]
        simp [Finset.Ico_self, Nat.add_sub_add_left]
      · rw [ih _ _ _ c r (by omega) (by omega) h3 h4,
          Finset.sum_eq_sum_Ico_succ_bot hlt]
        congr 1
        ring

theorem packRowWrites_apply (A : Mat) (r : ℕ) :
    ∀ (n c i : ℕ) (V : ℕ → ℚ) (t : ℕ),
      packRowWrites A r n c i V t =
        if i ≤ t ∧ t < i + n then A r (c + (t - i)) else V t := by
  intro n
  induction n with
  | zero =>
      intro c i V t
      simp only [packRowWrites]
      rw [if_neg (by omega)]
  | succ n ih =>
      intro c i V t
      simp only [packRowWrites]
      rw [ih]
      rcases Nat.lt_trichotomy t i with h | h | h
      · rw [if_neg (by omega), if_neg (by omega), Function.update_apply, if_neg (by omega)]
      · subst h
        rw [if_neg (by omega), if_pos (by omega), Function.update_apply, if_pos rfl]
        congr 1
        omega
      · by_cases h2 : t < i + (n + 1)
        · rw [if_pos (by omega), if_pos (by omega)]
          congr 1
          omega
        · rw [if_neg (by omega), if_neg (by omega), Function.update_apply, if_neg (by omega)]

theorem packColLoop_untouched (A : Mat) (m : ℕ) :
    ∀ (n r i : ℕ) (V : ℕ → ℚ) (t : ℕ), t < i →
      packColLoop A m n r i V t = V t := by
  intro n
  induction n with
  | zero => intro r i V t _; rfl
  | succ n ih =>
      intro r i V t ht
      simp only [packColLoop]
      rw [ih _ _ _ _ (by omega), packRowWrites_apply, if_neg (by omega)]

theorem packColLoop_written (A : Mat) (m : ℕ) :
    ∀ (n r0 i : ℕ) (V : ℕ → ℚ) (r c : ℕ),
      r0 ≤ r → r < r0 + n → r ≤ c → c < m →
      packColLoop A m n r0 i V (i + (∑ j ∈ Finset.Ico r0 r, (m - j)) + (c - r)) = A r c := by
  intro n
  induction n with
  | zero => intro r0 i V r c h1 h2 h3 h4; exact absurd h2 (by omega)
  | succ n ih =>
      intro r0 i V r c h1 h2 h3 h4
      simp only [packColLoop]
      rcases eq_or_lt_of_le h1 with heq | hlt
      · subst heq
        simp only [Finset.Ico_self, Finset.sum_empty, Nat.add_zero]
        rw [packColLoop_untouched A m n _ _ _ _ (by omega), packRowWrites_apply,
          if_pos (by omega)]
        congr 1
        omega
      · have harg : i + (∑ j ∈ Finset.Ico r0 r, (m - j)) + (c - r) =
            (i + (m - r0)) + (∑ j ∈ Finset.Ico (r0 + 1) r, (m - j)) + (c - r) := by
          rw [Finset.sum_eq_sum_Ico_succ_bot hlt]
          ring
        rw [harg]
        exact ih _ _ _ r c (by omega) (by omega) h3 h4

theorem packColumn_spec (m : ℕ) (A : Mat) (r c : ℕ) (hrc : r ≤ c) (hc : c < m) :
    packColumn m A (triOffset m r + (c - r)) = A r c := by
  have h := packColLoop_written A m m 0 0 (fun _ => 0) r c (by omega) (by omega) hrc hc
  rw [← Finset.range_eq_Ico, Nat.zero_add] at h
  simp only [packColumn, triOffset]
  exact h

theorem getD_drop_one (ms : List SizedMat) (k : ℕ) :
    (ms.drop 1).getD k zeroSM = ms.getD (k + 1) zeroSM := by
  cases ms with
  | nil => simp [List.getD]
  | cons A t => simp [List.getD]

theorem ofMatrices_vectorMatrix_apply (ms : List SizedMat) (k r c : ℕ)
    (hrc : r ≤ c) (hc : c < (ms.getD 0 zeroSM).rows) :
    (LMI.ofMatrices ms).vectorMatrix (triOffset (ms.getD 0 zeroSM).rows r + (c - r)) k =
      (ms.getD (k + 1) zeroSM).entry r c := by
  rw [ofMatrices_vectorMatrix]
  unfold setVectorMatrix
  rw [packColumn_spec _ _ r c hrc hc, getD_drop_one]

theorem evaluateWithoutA0_apply (L : LMI) (x : Vec) (r c : ℕ) (hr : r < L.m) (hc : c < L.m) :
    evaluateWithoutA0 L x r c =
      if r ≤ c then packedCombo L x (triOffset L.m r + (c - r))
      else packedCombo L x (triOffset L.m c + (r - c)) := by
  unfold evaluateWithoutA0
  by_cases hrc : r ≤ c
  · rw [if_pos hrc,
      upperPass_written (packedCombo L x) L.m L.m 0 0 _ r c (by omega) (by omega) hrc hc]
    congr 1
    simp only [triOffset]
    rw [← Finset.range_eq_Ico, Nat.zero_add]
  · rw [if_neg hrc,
      upperPass_untouched (packedCombo L x) L.m L.m 0 0 _ c r hr (Or.inr (by omega)),
      lowerPass_written (packedCombo L x) L.m L.m 0 0 _ c r (by omega) (by omega) (by omega) hr]
    congr 1
    simp only [triOffset]
    rw [← Finset.range_eq_Ico, Nat.zero_add]

theorem getD_mem_of_lt (ms : List SizedMat) (k : ℕ) (hk : k < ms.length) :
    ms.getD k zeroSM ∈ ms := by
  rw [List.getD_eq_getElem ms zeroSM hk]
  exact List.getElem_mem hk

theorem packedCombo_ofMatrices (ms : List SizedMat) (x : Vec) (r c : ℕ)
    (hrc : r ≤ c) (hc : c < (ms.getD 0 zeroSM).rows) :
    packedCombo (LMI.ofMatrices ms) x (triOffset (ms.getD 0 zeroSM).rows r + (c - r)) =
      ∑ k ∈ Finset.range (LMI.ofMatrices ms).d, (ms.getD (k + 1) zeroSM).entry r c * x k := by
  unfold packedCombo
  apply Finset.sum_congr rfl
  intro k _
  rw [ofMatrices_vectorMatrix_apply ms k r c hrc hc]

theorem evaluateWithoutA0_eq_weightedSum (ms : List SizedMat) (x : Vec)
    (hne : ms ≠ []) (hlen : ms.length ≤ 2 ^ 32)
    (hsym : ∀ A ∈ ms, SymmWithin (LMI.ofMatrices ms).m A.entry)
    (r c : ℕ) (hr : r < (LMI.ofMatrices ms).m) (hc : c < (LMI.ofMatrices ms).m) :
    evaluateWithoutA0 (LMI.ofMatrices ms) x r c =
      ∑ k ∈ Finset.range (LMI.ofMatrices ms).d, x k * (ms.getD (k + 1) zeroSM).entry r c := by
  have hm := ofMatrices_m ms
  have hd := ofMatrices_d ms hne hlen
  rw [evaluateWithoutA0_apply _ _ _ _ hr hc]
  rw [hm] at hr hc
  by_cases hrc : r ≤ c
  · rw [if_pos hrc, hm, packedCombo_ofMatrices ms x r c hrc hc]
    exact Finset.sum_congr rfl (fun k _ => mul_comm _ _)
  · rw [if_neg hrc, hm, packedCombo_ofMatrices ms x c r (by omega) hr]
    apply Finset.sum_congr rfl
    intro k hk
    have hkd : k + 1 < ms.length := by
      rw [hd] at hk
      have := Finset.mem_range.mp hk
      omega
    have hmem := getD_mem_of_lt ms (k + 1) hkd
    have hsymk := hsym _ hmem
    rw [hm] at hsymk
    rw [hsymk c hc r hr]
    exact mul_comm _ _

theorem demoMs_symm : ∀ A ∈ demoMs, SymmWithin (LMI.ofMatrices demoMs).m A.entry := by
  decide

theorem demoL_matrices : demoL.matrices = demoMs :=
  ofMatrices_matrices demoMs

theorem evaluate_demoL_entry (x : Vec) (r c : ℕ) (hr : r < 2) (hc : c < 2) :
    evaluate demoL x r c = x 0 * demoA1 r c + x 1 * demoA2 r c := by
  have h := evaluateWithoutA0_eq_weightedSum demoMs x (by simp [demoMs]) (by decide)
    demoMs_symm r c hr hc
  show evaluateWithoutA0 (LMI.ofMatrices demoMs) x r c +
      ((LMI.ofMatrices demoMs).matrices.getD 0 zeroSM).entry r c =
    x 0 * demoA1 r c + x 1 * demoA2 r c
  rw [h, show (LMI.ofMatrices demoMs).d = 2 from rfl, Finset.sum_range_succ,
    Finset.sum_range_one, ofMatrices_matrices,
    show demoMs.getD (0 + 1) zeroSM = ⟨2, demoA1⟩ from rfl,
    show demoMs.getD (1 + 1) zeroSM = ⟨2, demoA2⟩ from rfl,
    show demoMs.getD 0 zeroSM = ⟨2, demoA0⟩ from rfl]
  show x 0 * demoA1 r c + x 1 * demoA2 r c + 0 = _
  rw [add_zero]

theorem evaluate_demoL_xPos (r c : ℕ) (hr : r < 2) (hc : c < 2) :
    evaluate demoL xPos r c = demoA1 r c := by
  rw [evaluate_demoL_entry xPos r c hr hc]
  show (1 : ℚ) * demoA1 r c + (0 : ℚ) * demoA2 r c = demoA1 r c
  ring

theorem evaluate_demoL_xNeg (r c : ℕ) (hr : r < 2) (hc : c < 2) :
    evaluate demoL xNeg r c = -demoA1 r c := by
  rw [evaluate_demoL_entry xNeg r c hr hc]
  show (-1 : ℚ) * demoA1 r c + (0 : ℚ) * demoA2 r c = -demoA1 r c
  ring

theorem preGradient_demoL_xPos_0 : preGradient demoL xPos 0 = 1 := by
  unfold preGradient
  rw [demoL_matrices, show demoMs.getD (0 + 1) zeroSM = ⟨2, demoA1⟩ from rfl]
  show ∑ r ∈ Finset.range 2, xPos r * ∑ c ∈ Finset.range 2, demoA1 r c * xPos c = 1
  simp [Finset.sum_range_succ, xPos, demoA1]

theorem preGradient_degL_eOnes_0 : preGradient degL eOnes 0 = 0 := by
  unfold preGradient
  rw [show degL.matrices = [⟨2, demoA0⟩, ⟨2, demoA1⟩] from ofMatrices_matrices _,
    show List.getD [(⟨2, demoA0⟩ : SizedMat), ⟨2, demoA1⟩] (0 + 1) zeroSM = ⟨2, demoA1⟩ from rfl]
  show ∑ r ∈ Finset.range 2, eOnes r * ∑ c ∈ Finset.range 2, demoA1 r c * eOnes c = 0
  simp [Finset.sum_range_succ, eOnes, demoA1]

theorem gradNormSq_degL_eOnes : gradNormSq degL eOnes = 0 := by
  unfold gradNormSq
  rw [show degL.d = 1 from rfl, Finset.sum_range_one, preGradient_degL_eOnes_0]
  norm_num

/-! ## Claim theorems -/

/-- Claim C1: for every pencil built from symmetric matrices `A0..Ad` and
every vector `x`, the packed-path `evaluateWithoutA0` (the product with
`vectorMatrix` followed by the two triangular copy passes) produces, entry by
entry on the `m × m` output, the same matrix as the naive weighted sum
`x_1·A_1 + ... + x_d·A_d`, exactly over exact arithmetic. -/
theorem packedEval_eq_naive (ms : List SizedMat) (x : Vec)
    (hne : ms ≠ []) (hlen : ms.length ≤ 2 ^ 32)
    (hsym : ∀ A ∈ ms, SymmWithin (LMI.ofMatrices ms).m A.entry)
    (r c : ℕ) (hr : r < (LMI.ofMatrices ms).m) (hc : c < (LMI.ofMatrices ms).m) :
    evaluateWithoutA0 (LMI.ofMatrices ms) x r c =
      naiveEvaluateWithoutA0 (LMI.ofMatrices ms) x r c := by
  rw [evaluateWithoutA0_eq_weightedSum ms x hne hlen hsym r c hr hc]
  unfold naiveEvaluateWithoutA0
  rw [ofMatrices_matrices]

/-- Witness for C1 at the concrete scenario pencil, `x = (1, 0)`, entry
`(0, 1)`. -/
theorem packedEval_eq_naive_witness :
    evaluateWithoutA0 (LMI.ofMatrices demoMs) xPos 0 1 =
      naiveEvaluateWithoutA0 (LMI.ofMatrices demoMs) xPos 0 1 :=
  packedEval_eq_naive demoMs xPos (by simp [demoMs]) (by decide) demoMs_symm 0 1
    (by decide) (by decide)

/-- Claim C2: for every pencil and vector `x`, `evaluate(x)` equals
`evaluateWithoutA0(x)` plus `A0` (the first stored matrix), element-wise and
exactly — `evaluate` literally performs this one addition. -/
theorem evaluate_eq_evaluateWithoutA0_add_A0 (L : LMI) (x : Vec) (r c : ℕ) :
    evaluate L x r c = evaluateWithoutA0 L x r c + (L.matrices.getD 0 zeroSM).entry r c :=
  rfl

/-- Claim C3: for every pencil built from symmetric matrices and every vector
`x`, the output of `evaluate` is symmetric on the `m × m` block. -/
theorem evaluate_symmetric (ms : List SizedMat) (x : Vec)
    (hne : ms ≠ [])
    (hsym : ∀ A ∈ ms, SymmWithin (LMI.ofMatrices ms).m A.entry)
    (r c : ℕ) (hr : r < (LMI.ofMatrices ms).m) (hc : c < (LMI.ofMatrices ms).m) :
    evaluate (LMI.ofMatrices ms) x r c = evaluate (LMI.ofMatrices ms) x c r := by
  unfold evaluate
  rw [evaluateWithoutA0_apply _ _ _ _ hr hc, evaluateWithoutA0_apply _ _ _ _ hc hr]
  congr 1
  · rcases Nat.lt_trichotomy r c with h | h | h
    · rw [if_pos (Nat.le_of_lt h), if_neg (Nat.not_le.mpr h)]
    · subst h
      rfl
    · rw [if_neg (Nat.not_le.mpr h), if_pos (Nat.le_of_lt h)]
  · rw [ofMatrices_matrices]
    have hmem : ms.getD 0 zeroSM ∈ ms :=
      getD_mem_of_lt ms 0 (List.length_pos.mpr hne)
    exact hsym _ hmem r hr c hc

/-- Witness for C3 at the concrete scenario pencil, `x = (1, 0)`, entries
`(0, 1)` and `(1, 0)`. -/
theorem evaluate_symmetric_witness :
    evaluate (LMI.ofMatrices demoMs) xPos 0 1 = evaluate (LMI.ofMatrices demoMs) xPos 1 0 :=
  evaluate_symmetric demoMs xPos (by simp [demoMs]) demoMs_symm 0 1 (by decide) (by decide)

/-- Claim C4: for every pencil, point `p`, and vector `e` whose
pre-normalization vector `(eᵀ·A_1·e, ..., eᵀ·A_d·e)` is nonzero,
`normalizedDeterminantGradient` produces a vector whose coordinate `i-1`
(`i = 1..d`) is a fixed positive multiple of `eᵀ·A_i·e`, and whose Euclidean
norm over its `d` coordinates is 1. -/
theorem normalizedDeterminantGradient_spec (L : LMI) (p e : Vec)
    (h : ∃ i, i < L.d ∧ preGradient L e i ≠ 0) :
    (∃ s : ℝ, 0 < s ∧ ∀ i < L.d,
        normalizedDeterminantGradient L p e i = s * (preGradient L e i : ℝ)) ∧
    Real.sqrt (∑ i ∈ Finset.range L.d, normalizedDeterminantGradient L p e i ^ 2) = 1 := by
  obtain ⟨i0, hi0, hne⟩ := h
  have hpos : 0 < gradNormSq L e := by
    unfold gradNormSq
    have h1 : 0 < preGradient L e i0 ^ 2 := by positivity
    have h2 : ∀ j ∈ Finset.range L.d, 0 ≤ preGradient L e j ^ 2 := fun j _ => sq_nonneg _
    exact lt_of_lt_of_le h1 (Finset.single_le_sum h2 (Finset.mem_range.mpr hi0))
  have hposR : (0 : ℝ) < (gradNormSq L e : ℝ) := by exact_mod_cast hpos
  have hsq : 0 < Real.sqrt (gradNormSq L e) := Real.sqrt_pos.mpr hposR
  constructor
  · refine ⟨(Real.sqrt (gradNormSq L e))⁻¹, inv_pos.mpr hsq, ?_⟩
    intro i _
    unfold normalizedDeterminantGradient
    rw [if_pos hpos, div_eq_inv_mul]
  · have hterm : ∀ i ∈ Finset.range L.d,
        normalizedDeterminantGradient L p e i ^ 2 =
          (preGradient L e i : ℝ) ^ 2 / (gradNormSq L e : ℝ) := by
      intro i _
      unfold normalizedDeterminantGradient
      rw [if_pos hpos, div_pow, Real.sq_sqrt hposR.le]
    rw [Finset.sum_congr rfl hterm, ← Finset.sum_div]
    have hcast : ∑ i ∈ Finset.range L.d, (preGradient L e i : ℝ) ^ 2 =
        ((gradNormSq L e : ℚ) : ℝ) := by
      unfold gradNormSq
      push_cast
      rfl
    rw [hcast, div_self (ne_of_gt hposR), Real.sqrt_one]

/-- Witness for C4 at the concrete scenario pencil with `e = (1, 0)` (the
pre-normalization vector is `(1, 0)`). -/
theorem normalizedDeterminantGradient_spec_witness :
    (∃ s : ℝ, 0 < s ∧ ∀ i < demoL.d,
        normalizedDeterminantGradient demoL pZero xPos i = s * (preGradient demoL xPos i : ℝ)) ∧
    Real.sqrt (∑ i ∈ Finset.range demoL.d, normalizedDeterminantGradient demoL pZero xPos i ^ 2) = 1 :=
  normalizedDeterminantGradient_spec demoL pZero xPos
    ⟨0, by decide, by rw [preGradient_demoL_xPos_0]; norm_num⟩

/-- Claim C5, evaluated at a failing input (the pencil with `d = 1`,
`A1 = [[1,0],[0,-1]]` and the kernel-style vector `e = (1,1)`): the
pre-normalization vector is exactly zero, and `normalizedDeterminantGradient`
silently returns the zero vector (Eigen's `normalize` leaves a vector of
squared norm 0 unchanged) — no error of any kind is reported to the caller,
contradicting the claimed explicit degenerate-gradient error. -/
theorem degenerateGradient_silent :
    gradNormSq degL eOnes = 0 ∧
    normalizedDeterminantGradient degL pZero eOnes 0 = 0 := by
  refine ⟨gradNormSq_degL_eOnes, ?_⟩
  unfold normalizedDeterminantGradient
  rw [if_neg (by rw [gradNormSq_degL_eOnes]; norm_num), preGradient_degL_eOnes_0]
  exact Rat.cast_zero

/-- Claim C6: `isNegativeSemidefinite(matrix)` returns true iff the oracle's
extremal eigenvalue for that matrix is `≤ 0`, and
`isNegativeSemidefinite(position)` is exactly the matrix form applied to
`evaluate(position)`, with no other state involved. -/
theorem isNegativeSemidefinite_spec (oracle : Mat → ℚ) (M : Mat) (L : LMI) (x : Vec) :
    (isNegativeSemidefiniteM oracle M = true ↔ oracle M ≤ 0) ∧
    isNegativeSemidefiniteV oracle L x = isNegativeSemidefiniteM oracle (evaluate L x) := by
  constructor
  · unfold isNegativeSemidefiniteM
    exact decide_eq_true_iff
  · rfl

/-- Claim C7, evaluated at the failing inputs: the dense constructor performs
no validation.  On the empty sequence it produces a pencil object whose `d`
has wrapped around to `2^32 - 1 = 4294967295` (instead of failing fast), and
a sequence of two different-sized matrices is accepted silently, with `m`
taken from the first matrix. -/
theorem construction_no_validation :
    (LMI.ofMatrices []).d = 4294967295 ∧
    (LMI.ofMatrices [⟨2, demoA1⟩, ⟨3, demoA0⟩]).m = 2 := by
  constructor
  · decide
  · decide

/-- Claim C8, evaluated at the failing input: `evaluate` performs no length
check — on the `d = 2` scenario pencil its result depends on coordinate 1 of
`x`, which for a caller-supplied vector of length 1 is past the end of the
vector's storage.  `xShortA` and `xShortB` agree at coordinate 0 and differ
only at coordinate 1 (two possible contents of the out-of-bounds memory), yet
`evaluate` proceeds and returns different matrices instead of failing. -/
theorem evaluate_reads_beyond_given_length :
    xShortA 0 = xShortB 0 ∧
    evaluate demoL xShortA 0 1 ≠ evaluate demoL xShortB 0 1 := by
  refine ⟨rfl, ?_⟩
  rw [evaluate_demoL_entry xShortA 0 1 (by omega) (by omega),
    evaluate_demoL_entry xShortB 0 1 (by omega) (by omega)]
  show (5 : ℚ) * demoA1 0 1 + (0 : ℚ) * demoA2 0 1 ≠
    (5 : ℚ) * demoA1 0 1 + (7 : ℚ) * demoA2 0 1
  norm_num [demoA1, demoA2]

theorem mulVecN_two (A : Mat) (v : Vec) (r : ℕ) :
    mulVecN 2 A v r = A r 0 * v 0 + A r 1 * v 1 := by
  unfold mulVecN
  rw [Finset.sum_range_succ, Finset.sum_range_one]

theorem eig_of_diag2 (M : Mat) (d0 d1 : ℚ)
    (h00 : M 0 0 = d0) (h01 : M 0 1 = 0) (h10 : M 1 0 = 0) (h11 : M 1 1 = d1)
    (mu : ℚ) (v : Vec) (hv : ∃ i, i < 2 ∧ v i ≠ 0)
    (heq : ∀ r < 2, mulVecN 2 M v r = mu * v r) :
    mu = d0 ∨ mu = d1 := by
  have e0 := heq 0 (by omega)
  have e1 := heq 1 (by omega)
  rw [mulVecN_two, h00, h01, zero_mul, add_zero] at e0
  rw [mulVecN_two, h10, h11, zero_mul, zero_add] at e1
  obtain ⟨i, hi, hvi⟩ := hv
  interval_cases i
  · exact Or.inl (mul_right_cancel₀ hvi e0).symm
  · exact Or.inr (mul_right_cancel₀ hvi e1).symm

theorem maxEig_diag2 (M : Mat) (d0 d1 lam : ℚ)
    (h00 : M 0 0 = d0) (h01 : M 0 1 = 0) (h10 : M 1 0 = 0) (h11 : M 1 1 = d1)
    (h : IsMaxEigenvalue 2 M lam) : lam = max d0 d1 := by
  obtain ⟨⟨v, hv, heq⟩, hbound⟩ := h
  have hmem : lam = d0 ∨ lam = d1 := eig_of_diag2 M d0 d1 h00 h01 h10 h11 lam v hv heq
  have hd0 : d0 ≤ lam := by
    apply hbound d0 (fun i => if i = 0 then 1 else 0) ⟨0, by omega, by norm_num⟩
    intro r hr
    interval_cases r
    · rw [mulVecN_two]
      simp [h00, h01]
    · rw [mulVecN_two]
      simp [h10, h11]
  have hd1 : d1 ≤ lam := by
    apply hbound d1 (fun i => if i = 1 then 1 else 0) ⟨1, by omega, by norm_num⟩
    intro r hr
    interval_cases r
    · rw [mulVecN_two]
      simp [h00, h01]
    · rw [mulVecN_two]
      simp [h10, h11]
  rcases hmem with h | h
  · rw [h, max_eq_left (by linarith)]
  · rw [h, max_eq_right (by linarith)]

/-- Claim C9: concrete scenario `d = 2, m = 2`, `A0 = 0`,
`A1 = [[1,0],[0,-1]]`, `A2 = [[0,1],[1,0]]`, for any eigen-oracle satisfying
the spec's maximum-eigenvalue contract at the two evaluated matrices:
`evaluate((1,0)) = [[1,0],[0,-1]]` with `isNegativeSemidefinite((1,0)) =
false`, and `evaluate((-1,0)) = [[-1,0],[0,1]]` with
`isNegativeSemidefinite((-1,0)) = false`. -/
theorem concreteScenario (oracle : Mat → ℚ)
    (h1 : IsMaxEigenvalue 2 (evaluate demoL xPos) (oracle (evaluate demoL xPos)))
    (h2 : IsMaxEigenvalue 2 (evaluate demoL xNeg) (oracle (evaluate demoL xNeg))) :
    (evaluate demoL xPos 0 0 = 1 ∧ evaluate demoL xPos 0 1 = 0 ∧
     evaluate demoL xPos 1 0 = 0 ∧ evaluate demoL xPos 1 1 = -1 ∧
     isNegativeSemidefiniteV oracle demoL xPos = false) ∧
    (evaluate demoL xNeg 0 0 = -1 ∧ evaluate demoL xNeg 0 1 = 0 ∧
     evaluate demoL xNeg 1 0 = 0 ∧ evaluate demoL xNeg 1 1 = 1 ∧
     isNegativeSemidefiniteV oracle demoL xNeg = false) := by
  have p00 : evaluate demoL xPos 0 0 = 1 := evaluate_demoL_xPos 0 0 (by omega) (by omega)
  have p01 : evaluate demoL xPos 0 1 = 0 := evaluate_demoL_xPos 0 1 (by omega) (by omega)
  have p10 : evaluate demoL xPos 1 0 = 0 := evaluate_demoL_xPos 1 0 (by omega) (by omega)
  have p11 : evaluate demoL xPos 1 1 = -1 := evaluate_demoL_xPos 1 1 (by omega) (by omega)
  have n00 : evaluate demoL xNeg 0 0 = -1 := by
    rw [evaluate_demoL_xNeg 0 0 (by omega) (by omega)]
    norm_num [demoA1]
  have n01 : evaluate demoL xNeg 0 1 = 0 := by
    rw [evaluate_demoL_xNeg 0 1 (by omega) (by omega)]
    norm_num [demoA1]
  have n10 : evaluate demoL xNeg 1 0 = 0 := by
    rw [evaluate_demoL_xNeg 1 0 (by omega) (by omega)]
    norm_num [demoA1]
  have n11 : evaluate demoL xNeg 1 1 = 1 := by
    rw [evaluate_demoL_xNeg 1 1 (by omega) (by omega)]
    norm_num [demoA1]
  have o1 := maxEig_diag2 (evaluate demoL xPos) 1 (-1) (oracle (evaluate demoL xPos))
    p00 p01 p10 p11 h1
  have o2 := maxEig_diag2 (evaluate demoL xNeg) (-1) 1 (oracle (evaluate demoL xNeg))
    n00 n01 n10 n11 h2
  have o1' : oracle (evaluate demoL xPos) = 1 := by rw [o1]; norm_num
  have o2' : oracle (evaluate demoL xNeg) = 1 := by rw [o2]; norm_num
  refine ⟨⟨p00, p01, p10, p11, ?_⟩, ⟨n00, n01, n10, n11, ?_⟩⟩
  · unfold isNegativeSemidefiniteV isNegativeSemidefiniteM
    apply decide_eq_false
    rw [o1']
    norm_num
  · unfold isNegativeSemidefiniteV isNegativeSemidefiniteM
    apply decide_eq_false
    rw [o2']
    norm_num

theorem isMaxEig_demoPos : IsMaxEigenvalue 2 (evaluate demoL xPos) 1 := by
  have p00 : evaluate demoL xPos 0 0 = 1 := evaluate_demoL_xPos 0 0 (by omega) (by omega)
  have p01 : evaluate demoL xPos 0 1 = 0 := evaluate_demoL_xPos 0 1 (by omega) (by omega)
  have p10 : evaluate demoL xPos 1 0 = 0 := evaluate_demoL_xPos 1 0 (by omega) (by omega)
  have p11 : evaluate demoL xPos 1 1 = -1 := evaluate_demoL_xPos 1 1 (by omega) (by omega)
  constructor
  · refine ⟨fun i => if i = 0 then 1 else 0, ⟨0, by omega, by norm_num⟩, ?_⟩
    intro r hr
    interval_cases r
    · rw [mulVecN_two, p00, p01]
      norm_num
    · rw [mulVecN_two, p10, p11]
      norm_num
  · intro mu v hv heq
    have hmem := eig_of_diag2 (evaluate demoL xPos) 1 (-1) p00 p01 p10 p11 mu v hv heq
    rcases hmem with h | h <;> rw [h] <;> norm_num

theorem isMaxEig_demoNeg : IsMaxEigenvalue 2 (evaluate demoL xNeg) 1 := by
  have n00 : evaluate demoL xNeg 0 0 = -1 := by
    rw [evaluate_demoL_xNeg 0 0 (by omega) (by omega)]
    norm_num [demoA1]
  have n01 : evaluate demoL xNeg 0 1 = 0 := by
    rw [evaluate_demoL_xNeg 0 1 (by omega) (by omega)]
    norm_num [demoA1]
  have n10 : evaluate demoL xNeg 1 0 = 0 := by
    rw [evaluate_demoL_xNeg 1 0 (by omega) (by omega)]
    norm_num [demoA1]
  have n11 : evaluate demoL xNeg 1 1 = 1 := by
    rw [evaluate_demoL_xNeg 1 1 (by omega) (by omega)]
    norm_num [demoA1]
  constructor
  · refine ⟨fun i => if i = 1 then 1 else 0, ⟨1, by omega, by norm_num⟩, ?_⟩
    intro r hr
    interval_cases r
    · rw [mulVecN_two, n00, n01]
      norm_num
    · rw [mulVecN_two, n10, n11]
      norm_num
  · intro mu v hv heq
    have hmem := eig_of_diag2 (evaluate demoL xNeg) (-1) 1 n00 n01 n10 n11 mu v hv heq
    rcases hmem with h | h <;> rw [h] <;> norm_num

/-- Witness for C9 with the constant oracle returning 1, which satisfies the
maximum-eigenvalue contract at both evaluated matrices. -/
theorem concreteScenario_witness :
    (evaluate demoL xPos 0 0 = 1 ∧ evaluate demoL xPos 0 1 = 0 ∧
     evaluate demoL xPos 1 0 = 0 ∧ evaluate demoL xPos 1 1 = -1 ∧
     isNegativeSemidefiniteV (fun _ => 1) demoL xPos = false) ∧
    (evaluate demoL xNeg 0 0 = -1 ∧ evaluate demoL xNeg 0 1 = 0 ∧
     evaluate demoL xNeg 1 0 = 0 ∧ evaluate demoL xNeg 1 1 = 1 ∧
     isNegativeSemidefiniteV (fun _ => 1) demoL xNeg = false) :=
  concreteScenario (fun _ => 1) isMaxEig_demoPos isMaxEig_demoNeg

/-- Claim C10: the copy loop of the UNSPECIALIZED generic template's
constructor tests the iterator against `end()` but never advances it: for
every non-empty input and every iteration budget the loop is still running
(`none`), and for the empty input it exits immediately with the (empty)
member vector. -/
theorem genericCopyLoop_behavior :
    (∀ (ms : List SizedMat) (fuel : ℕ) (acc : List SizedMat), ms ≠ [] →
       genericCopyLoop ms 0 fuel acc = none) ∧
    (∀ fuel : ℕ, genericCopyLoop [] 0 fuel [] = some []) := by
  constructor
  · intro ms fuel
    induction fuel with
    | zero =>
        intro acc hne
        simp only [genericCopyLoop]
        rw [if_neg (fun h => hne (List.eq_nil_of_length_eq_zero h.symm))]
    | succ fuel ih =>
        intro acc hne
        simp only [genericCopyLoop]
        rw [if_neg (fun h => hne (List.eq_nil_of_length_eq_zero h.symm))]
        exact ih _ hne
  · intro fuel
    cases fuel <;> simp [genericCopyLoop]

/-- Witness for C10: with a one-matrix input the loop is still running after
5 iterations; with the empty input it terminates at once. -/
theorem genericCopyLoop_behavior_witness :
    genericCopyLoop [⟨1, fun _ _ => 0⟩] 0 5 [] = none ∧
    genericCopyLoop [] 0 7 [] = some [] :=
  ⟨genericCopyLoop_behavior.1 [⟨1, fun _ _ => 0⟩] 5 [] (by simp),
   genericCopyLoop_behavior.2 7⟩
